import Mathlib

/-!
Verification development for the autoscraper utility layer
(src/autoscraper/utils.py) and its persistence codec.

Strings are modelled as lists over a type with decidable equality.
The similarity primitive of the source is difflib.SequenceMatcher
with no junk predicate; we embed its documented matching-block
semantics: repeatedly take the longest matching block (ties broken
by the earliest start in the first sequence, then the earliest start
in the second) and recurse on the pieces to its left and right.
The CPython autojunk heuristic, which activates only for second
sequences of length at least 200, is not modelled.
-/

namespace Autoscraper

variable {α : Type} [DecidableEq α]

/-- A triple (i, j, k) is a matching block when the length-k slices of
the two lists starting at i and j coincide and stay in bounds. -/
def commonAt (a b : List α) (i j k : Nat) : Bool :=
  decide (i + k ≤ a.length) && decide (j + k ≤ b.length) &&
    decide ((a.drop i).take k = (b.drop j).take k)

/-- All index triples that could describe a matching block of the two lists. -/
def blockCandidates (a b : List α) : List (Nat × Nat × Nat) :=
  (List.range (a.length + 1)).flatMap fun i =>
    (List.range (b.length + 1)).flatMap fun j =>
      (List.range (min (a.length - i) (b.length - j) + 1)).map fun k => (i, j, k)

/-- Strict preference between blocks: longer wins, then the earlier start
in the first sequence, then the earlier start in the second. -/
def better (p q : Nat × Nat × Nat) : Bool :=
  decide (q.2.2 < p.2.2) ||
    (decide (p.2.2 = q.2.2) &&
      (decide (p.1 < q.1) || (decide (p.1 = q.1) && decide (p.2.1 < q.2.1))))

/-- Keep the preferred of an accumulator and a candidate block. -/
def chooseBetter (acc x : Nat × Nat × Nat) : Nat × Nat × Nat :=
  if better x acc then x else acc

/-- The longest matching block of two lists, with the tie-breaking of
difflib: maximal length, then minimal start in the first list, then
minimal start in the second. -/
def find_longest_match (a b : List α) : Nat × Nat × Nat :=
  ((blockCandidates a b).filter fun t => commonAt a b t.1 t.2.1 t.2.2).foldl
    chooseBetter (0, 0, 0)

/-- Fuelled total size of the matching blocks: take the longest block,
recurse on the pieces to its left and to its right. -/
def matchTotalF : Nat → List α → List α → Nat
  | 0, _, _ => 0
  | fuel + 1, a, b =>
    match find_longest_match a b with
    | (i, j, k) =>
      if k = 0 then 0
      else matchTotalF fuel (a.take i) (b.take j) + k +
        matchTotalF fuel (a.drop (i + k)) (b.drop (j + k))

/-- Total size of the matching blocks of two lists (difflib M value). -/
def matchTotal (a b : List α) : Nat :=
  matchTotalF (a.length + b.length) a b

/-- The difflib ratio: 2 M / T where T is the total length, and 1 when
both sequences are empty. -/
def similarity (a b : List α) : ℚ :=
  if a.length + b.length = 0 then 1
  else mkRat (2 * (matchTotal a b : Int)) (a.length + b.length)

/-- Propositional form of the block preference. -/
def Pref (p q : Nat × Nat × Nat) : Prop :=
  q.2.2 < p.2.2 ∨ (p.2.2 = q.2.2 ∧ (p.1 < q.1 ∨ (p.1 = q.1 ∧ p.2.1 < q.2.1)))

/-- A target value as utils.text_match receives it: a compiled pattern,
modelled by its fullmatch semantics (some match object or none), or a
plain string. -/
inductive PatternOrText (α : Type) where
  | regex (fullmatch : List α → Option (List α))
  | txt (s : List α)

/-- Embeds utils.text_match: a compiled pattern dispatches to
fullmatch and the result is converted to a boolean; otherwise a ratio
limit of at least 1 demands equality, and a smaller limit compares the
SequenceMatcher ratio against the limit. -/
def text_match (t1 : PatternOrText α) (t2 : List α) (ratio_limit : ℚ) : Bool :=
  match t1 with
  | .regex f => (f t2).isSome
  | .txt s =>
    if 1 ≤ ratio_limit then decide (s = t2)
    else decide (ratio_limit ≤ similarity s t2)

/-- Embeds the utils.FuzzyText comparator state: one reference string
and one ratio limit. -/
structure FuzzyText (β : Type) where
  text : List β
  ratio_limit : ℚ

/-- Embeds FuzzyText.search: always the ratio comparison, with no
equality shortcut. -/
def FuzzyText.search (self : FuzzyText α) (text : List α) : Bool :=
  decide (self.ratio_limit ≤ similarity self.text text)

/-- A Python value as utils.normalize sees it: either a string or any
non-string value. -/
inductive PyValue (α β : Type) where
  | str (s : List α)
  | other (x : β)

/-- Embeds str.strip: drop leading and trailing characters satisfying
the whitespace predicate. -/
def pyStrip (isSpace : α → Bool) (s : List α) : List α :=
  ((s.dropWhile isSpace).reverse.dropWhile isSpace).reverse

/-- Embeds utils.normalize, keeping the Unicode NFKD transformation
abstract: a string is stripped and then decomposed, any other value is
returned unchanged. -/
def normalize {β : Type} (nfkd : List α → List α) (isSpace : α → Bool) :
    PyValue α β → PyValue α β
  | .str s => .str (nfkd (pyStrip isSpace s))
  | .other x => .other x

/-- A learned rule record with the fields the persistence codec
serializes. -/
structure Stack where
  content : List (String × List (String × String))
  wanted_attr : Option String
  is_full_url : Bool
  is_non_rec_text : Bool
  url : String
  hash : String
  stack_id : String
  «alias» : String
deriving DecidableEq

/-- First-occurrence deduplication by a key, with the running seen set
made explicit as a list of keys. -/
def uniqueByAux {σ κ : Type} [DecidableEq κ] (key : σ → κ) :
    List κ → List σ → List σ
  | _, [] => []
  | seen, x :: xs =>
    if key x ∈ seen then uniqueByAux key seen xs
    else x :: uniqueByAux key (key x :: seen) xs

/-- Embeds utils.unique_stack_list: drop stacks whose hash was already
seen, keeping the first occurrence of each hash. -/
def unique_stack_list (stack_list : List Stack) : List Stack :=
  uniqueByAux Stack.hash [] stack_list

/-- Embeds utils.unique_hashable, the first-occurrence order of
OrderedDict.fromkeys. -/
def unique_hashable (hashable_items : List α) : List α :=
  uniqueByAux id [] hashable_items

/-- Modelled from the spec: the JSON value tree read and written by
the persistence codec, which is not part of the utility module. -/
inductive Json where
  | str (s : String)
  | bool (b : Bool)
  | null
  | arr (items : List Json)
  | obj (fields : List (String × Json))

/-- Sequence a partial decoder across a list, failing when any element
fails. -/
def mapOpt {γ δ : Type} (f : γ → Option δ) : List γ → Option (List δ)
  | [] => some []
  | x :: xs =>
    match f x, mapOpt f xs with
    | some y, some ys => some (y :: ys)
    | _, _ => none

/-- Modelled from the spec: an attribute map serialized as a JSON
object of string values. -/
def encodeAttrs (m : List (String × String)) : Json :=
  .obj (m.map fun p => (p.1, .str p.2))

/-- Modelled from the spec: decode an attribute map, demanding string
values. -/
def decodeAttrs : Json → Option (List (String × String))
  | .obj fields =>
    mapOpt (fun p =>
      match p.2 with
      | .str v => some (p.1, v)
      | _ => none) fields
  | _ => none

/-- Modelled from the spec: a content entry serialized as the array
holding the tag and the attribute map. -/
def encodeEntry (e : String × List (String × String)) : Json :=
  .arr [.str e.1, encodeAttrs e.2]

/-- Modelled from the spec: decode a content entry, accepting the
current two-element array and the historical three-element array whose
extra element is ignored. -/
def decodeEntry : Json → Option (String × List (String × String))
  | .arr (.str tag :: attrsJson :: rest) =>
    if rest.length ≤ 1 then (decodeAttrs attrsJson).map fun m => (tag, m)
    else none
  | _ => none

/-- Modelled from the spec: one Stack record serialized as an object
with the named keys of the data model. -/
def stackToJson (s : Stack) : Json :=
  .obj [("content", .arr (s.content.map encodeEntry)),
        ("wanted_attr", match s.wanted_attr with | none => .null | some a => .str a),
        ("is_full_url", .bool s.is_full_url),
        ("is_non_rec_text", .bool s.is_non_rec_text),
        ("url", .str s.url),
        ("hash", .str s.hash),
        ("stack_id", .str s.stack_id),
        ("alias", .str s.«alias»)]

def decodeStr : Json → Option String
  | .str v => some v
  | _ => none

def decodeOptStr : Json → Option (Option String)
  | .null => some none
  | .str v => some (some v)
  | _ => none

def decodeBool : Json → Option Bool
  | .bool b => some b
  | _ => none

def decodeContent : Json → Option (List (String × List (String × String)))
  | .arr entries => mapOpt decodeEntry entries
  | _ => none

/-- Modelled from the spec: decode one Stack record by its named keys,
preserving every stored field. -/
def jsonToStack : Json → Option Stack
  | .obj fields => do
    let content ← (fields.lookup "content").bind decodeContent
    let wanted ← (fields.lookup "wanted_attr").bind decodeOptStr
    let full ← (fields.lookup "is_full_url").bind decodeBool
    let nrt ← (fields.lookup "is_non_rec_text").bind decodeBool
    let url ← (fields.lookup "url").bind decodeStr
    let hsh ← (fields.lookup "hash").bind decodeStr
    let sid ← (fields.lookup "stack_id").bind decodeStr
    let al ← (fields.lookup "alias").bind decodeStr
    some ⟨content, wanted, full, nrt, url, hsh, sid, al⟩
  | _ => none

/-- Modelled from the spec: save writes the rule set as a JSON object
with the single key stack_list holding the ordered array of records. -/
def save (stack_list : List Stack) : Json :=
  .obj [("stack_list", .arr (stack_list.map stackToJson))]

/-- Modelled from the spec: load first attempts the object shape and
falls back to the bare-array legacy shape; in both cases the ordered
array of Stack records is decoded. -/
def load : Json → Option (List Stack)
  | .obj fields =>
    match fields.lookup "stack_list" with
    | some (.arr items) => mapOpt jsonToStack items
    | _ => none
  | .arr items => mapOpt jsonToStack items
  | .str _ => none
  | .bool _ => none
  | .null => none

/-- A concrete rule record used to instantiate the deduplication and
persistence theorems. -/
def stackA : Stack :=
  ⟨[("div", [("class", "x")])], none, false, false, "", "h1", "rule_h1", ""⟩

/-- A concrete rule record carrying every optional field. -/
def stackB : Stack :=
  ⟨[("span", []), ("a", [("class", "c")])], some "href", true, true,
    "e", "h2", "rule_h2", "grp"⟩

/-- A concrete rule record sharing its hash with stackA. -/
def stackC : Stack :=
  ⟨[("div", [])], none, false, false, "", "h1", "rule_h1b", ""⟩

/-- Unfolding of the block predicate into its three conditions. -/
theorem commonAt_iff {a b : List α} {i j k : Nat} :
    commonAt a b i j k = true ↔
      i + k ≤ a.length ∧ j + k ≤ b.length ∧ (a.drop i).take k = (b.drop j).take k := by
  simp [commonAt, and_assoc]

theorem better_eq_true_iff {p q : Nat × Nat × Nat} : better p q = true ↔ Pref p q := by
  simp [better, Pref]

theorem better_eq_false_iff {p q : Nat × Nat × Nat} : better p q = false ↔ ¬ Pref p q := by
  rw [← better_eq_true_iff, Bool.not_eq_true]

theorem better_self (p : Nat × Nat × Nat) : better p p = false := by
  rw [better_eq_false_iff]
  unfold Pref
  omega

theorem better_trans_not {x z w : Nat × Nat × Nat}
    (h1 : better z w = true) (h2 : better x w = false) : better x z = false := by
  rw [better_eq_true_iff] at h1
  rw [better_eq_false_iff] at h2 ⊢
  unfold Pref at *
  omega

theorem foldl_chooseBetter_mem (l : List (Nat × Nat × Nat)) (init : Nat × Nat × Nat) :
    l.foldl chooseBetter init = init ∨ l.foldl chooseBetter init ∈ l := by
  induction l generalizing init with
  | nil => exact Or.inl rfl
  | cons x xs ih =>
    rw [List.foldl_cons]
    rcases ih (chooseBetter init x) with h | h
    · rw [h]
      unfold chooseBetter
      by_cases hb : better x init = true
      · rw [if_pos hb]; exact Or.inr (List.mem_cons_self _ _)
      · rw [if_neg hb]; exact Or.inl rfl
    · exact Or.inr (List.mem_cons_of_mem _ h)

theorem foldl_chooseBetter_preserve (l : List (Nat × Nat × Nat))
    (init x : Nat × Nat × Nat) (h : better x init = false) :
    better x (l.foldl chooseBetter init) = false := by
  induction l generalizing init with
  | nil => exact h
  | cons y ys ih =>
    rw [List.foldl_cons]
    apply ih
    unfold chooseBetter
    by_cases hb : better y init = true
    · rw [if_pos hb]; exact better_trans_not hb h
    · rw [if_neg hb]; exact h

theorem foldl_chooseBetter_dom (l : List (Nat × Nat × Nat)) (init : Nat × Nat × Nat) :
    ∀ x ∈ l, better x (l.foldl chooseBetter init) = false := by
  induction l generalizing init with
  | nil => intro x hx; cases hx
  | cons y ys ih =>
    intro x hx
    rw [List.foldl_cons]
    rcases List.mem_cons.mp hx with rfl | hx
    · apply foldl_chooseBetter_preserve
      unfold chooseBetter
      by_cases hb : better x init = true
      · rw [if_pos hb]; exact better_self x
      · rw [if_neg hb]
        exact Bool.not_eq_true _ ▸ hb
    · exact ih _ x hx

theorem mem_blockCandidates {a b : List α} {i j k : Nat}
    (hi : i ≤ a.length) (hj : j ≤ b.length)
    (hk : k ≤ min (a.length - i) (b.length - j)) :
    (i, j, k) ∈ blockCandidates a b := by
  unfold blockCandidates
  refine List.mem_flatMap.mpr ⟨i, List.mem_range.mpr (by omega), ?_⟩
  refine List.mem_flatMap.mpr ⟨j, List.mem_range.mpr (by omega), ?_⟩
  exact List.mem_map.mpr ⟨k, List.mem_range.mpr (by omega), rfl⟩

theorem find_longest_match_valid (a b : List α) :
    commonAt a b (find_longest_match a b).1 (find_longest_match a b).2.1
      (find_longest_match a b).2.2 = true := by
  have h := foldl_chooseBetter_mem
    ((blockCandidates a b).filter fun t => commonAt a b t.1 t.2.1 t.2.2) (0, 0, 0)
  rcases h with h | h
  · unfold find_longest_match
    rw [h]
    simp [commonAt]
  · have h2 := (List.mem_filter.mp h).2
    unfold find_longest_match
    simpa using h2

theorem find_longest_match_spec {a b : List α} {i j k : Nat}
    (h : find_longest_match a b = (i, j, k)) :
    i + k ≤ a.length ∧ j + k ≤ b.length ∧ (a.drop i).take k = (b.drop j).take k := by
  have hval := find_longest_match_valid a b
  rw [h, commonAt_iff] at hval
  simpa using hval

theorem find_longest_match_self (a : List α) :
    find_longest_match a a = (0, 0, a.length) := by
  have hval := find_longest_match_valid a a
  rw [commonAt_iff] at hval
  have hmem : ((0, 0, a.length) : Nat × Nat × Nat) ∈
      (blockCandidates a a).filter (fun t => commonAt a a t.1 t.2.1 t.2.2) := by
    refine List.mem_filter.mpr ⟨mem_blockCandidates (by omega) (by omega) (by simp), ?_⟩
    simp [commonAt]
  have hdom : better (0, 0, a.length) (find_longest_match a a) = false := by
    unfold find_longest_match
    exact foldl_chooseBetter_dom _ (0, 0, 0) _ hmem
  rw [better_eq_false_iff] at hdom
  unfold Pref at hdom
  simp only [not_or, not_and, not_lt] at hdom
  simp at hdom
  obtain ⟨h1, h2, -⟩ := hval
  have e3 : (find_longest_match a a).2.2 = a.length := by omega
  have e1 : (find_longest_match a a).1 = 0 := by omega
  have e2 : (find_longest_match a a).2.1 = 0 := by omega
  have : find_longest_match a a =
      ((find_longest_match a a).1, (find_longest_match a a).2.1,
        (find_longest_match a a).2.2) := rfl
  rw [this, e1, e2, e3]

theorem matchTotalF_le (fuel : Nat) : ∀ a b : List α,
    matchTotalF fuel a b ≤ a.length ∧ matchTotalF fuel a b ≤ b.length := by
  induction fuel with
  | zero => intro a b; simp [matchTotalF]
  | succ n ih =>
    intro a b
    obtain ⟨i, j, k, hfl⟩ : ∃ i j k, find_longest_match a b = (i, j, k) := ⟨_, _, _, rfl⟩
    obtain ⟨h1, h2, -⟩ := find_longest_match_spec hfl
    simp only [matchTotalF, hfl]
    by_cases hk : k = 0
    · simp [hk]
    · rw [if_neg hk]
      have l1 := ih (a.take i) (b.take j)
      have l2 := ih (a.drop (i + k)) (b.drop (j + k))
      simp only [List.length_take, List.length_drop] at l1 l2
      omega

theorem matchTotalF_eq_len (fuel : Nat) : ∀ a b : List α,
    matchTotalF fuel a b = a.length → matchTotalF fuel a b = b.length → a = b := by
  induction fuel with
  | zero =>
    intro a b h1 h2
    simp only [matchTotalF] at h1 h2
    rw [List.length_eq_zero.mp h1.symm, List.length_eq_zero.mp h2.symm]
  | succ n ih =>
    intro a b h1 h2
    obtain ⟨i, j, k, hfl⟩ : ∃ i j k, find_longest_match a b = (i, j, k) := ⟨_, _, _, rfl⟩
    obtain ⟨hbi, hbj, hmid⟩ := find_longest_match_spec hfl
    simp only [matchTotalF, hfl] at h1 h2
    by_cases hk : k = 0
    · rw [if_pos hk] at h1 h2
      rw [List.length_eq_zero.mp h1.symm, List.length_eq_zero.mp h2.symm]
    · rw [if_neg hk] at h1 h2
      have bL := matchTotalF_le n (a.take i) (b.take j)
      have bR := matchTotalF_le n (a.drop (i + k)) (b.drop (j + k))
      simp only [List.length_take, List.length_drop] at bL bR
      have eLa : matchTotalF n (a.take i) (b.take j) = (a.take i).length := by
        rw [List.length_take]; omega
      have eLb : matchTotalF n (a.take i) (b.take j) = (b.take j).length := by
        rw [List.length_take]; omega
      have eRa : matchTotalF n (a.drop (i + k)) (b.drop (j + k)) = (a.drop (i + k)).length := by
        rw [List.length_drop]; omega
      have eRb : matchTotalF n (a.drop (i + k)) (b.drop (j + k)) = (b.drop (j + k)).length := by
        rw [List.length_drop]; omega
      have eL := ih _ _ eLa eLb
      have eR := ih _ _ eRa eRb
      calc a = a.take i ++ a.drop i := (List.take_append_drop i a).symm
        _ = a.take i ++ ((a.drop i).take k ++ (a.drop i).drop k) := by
              rw [List.take_append_drop k (a.drop i)]
        _ = a.take i ++ ((a.drop i).take k ++ a.drop (i + k)) := by
              rw [List.drop_drop]
        _ = b.take j ++ ((b.drop j).take k ++ b.drop (j + k)) := by rw [eL, hmid, eR]
        _ = b.take j ++ ((b.drop j).take k ++ (b.drop j).drop k) := by
              rw [List.drop_drop]
        _ = b.take j ++ b.drop j := by rw [List.take_append_drop k (b.drop j)]
        _ = b := List.take_append_drop j b

theorem matchTotalF_nil (fuel : Nat) : matchTotalF fuel ([] : List α) [] = 0 := by
  cases fuel with
  | zero => rfl
  | succ n =>
    obtain ⟨i, j, k, hfl⟩ : ∃ i j k, find_longest_match ([] : List α) [] = (i, j, k) :=
      ⟨_, _, _, rfl⟩
    have hval := find_longest_match_spec hfl
    have hk : k = 0 := by
      have := hval.1
      simp at this
      omega
    simp only [matchTotalF, hfl]
    rw [if_pos hk]

theorem matchTotal_le (a b : List α) :
    matchTotal a b ≤ a.length ∧ matchTotal a b ≤ b.length :=
  matchTotalF_le _ a b

theorem matchTotal_eq_len {a b : List α}
    (h1 : matchTotal a b = a.length) (h2 : matchTotal a b = b.length) : a = b :=
  matchTotalF_eq_len _ a b h1 h2

theorem matchTotal_self (a : List α) : matchTotal a a = a.length := by
  rcases a with - | ⟨x, xs⟩
  · rfl
  · unfold matchTotal
    obtain ⟨m, hm⟩ : ∃ m, (x :: xs).length + (x :: xs).length = m + 1 :=
      ⟨(x :: xs).length + (x :: xs).length - 1, by simp; omega⟩
    rw [hm]
    simp only [matchTotalF, find_longest_match_self]
    rw [if_neg (by simp)]
    simp [matchTotalF_nil, List.drop_length]

theorem similarity_nonneg (a b : List α) : 0 ≤ similarity a b := by
  unfold similarity
  split
  · norm_num
  · rw [Rat.mkRat_eq_div]
    apply div_nonneg
    · push_cast
      positivity
    · positivity

theorem similarity_le_one (a b : List α) : similarity a b ≤ 1 := by
  unfold similarity
  split
  · exact le_refl 1
  · rename_i hT
    have hle := matchTotal_le a b
    have hTpos : (0 : ℚ) < ((a.length + b.length : Nat) : ℚ) := by
      exact_mod_cast Nat.pos_of_ne_zero hT
    rw [Rat.mkRat_eq_div, div_le_one hTpos]
    have h2 : 2 * matchTotal a b ≤ a.length + b.length := by omega
    exact_mod_cast h2

theorem similarity_eq_one_iff (a b : List α) : similarity a b = 1 ↔ a = b := by
  constructor
  · intro h
    unfold similarity at h
    split at h
    · rename_i hT
      have ha : a.length = 0 := by omega
      have hb : b.length = 0 := by omega
      rw [List.length_eq_zero.mp ha, List.length_eq_zero.mp hb]
    · rename_i hT
      have hTpos : ((a.length + b.length : Nat) : ℚ) ≠ 0 := by
        exact_mod_cast hT
      rw [Rat.mkRat_eq_div, div_eq_one_iff_eq hTpos] at h
      have h2 : 2 * matchTotal a b = a.length + b.length := by exact_mod_cast h
      have hle := matchTotal_le a b
      exact matchTotal_eq_len (by omega) (by omega)
  · rintro rfl
    unfold similarity
    split
    · rfl
    · rename_i hT
      rw [matchTotal_self, Rat.mkRat_eq_div]
      have hA : ((a.length : Int) : ℚ) ≠ 0 := by
        intro h0
        apply hT
        have : a.length = 0 := by exact_mod_cast h0
        omega
      push_cast
      rw [div_eq_one_iff_eq (by push_cast at hA ⊢; intro h0; apply hA; linarith)]
      ring

theorem head_of_dropWhile {p : α → Bool} :
    ∀ (l : List α) (x : α), (l.dropWhile p).head? = some x → p x = false := by
  intro l
  induction l with
  | nil => intro x hx; cases hx
  | cons y ys ih =>
    intro x hx
    by_cases hp : p y = true
    · rw [List.dropWhile_cons_of_pos hp] at hx
      exact ih x hx
    · rw [List.dropWhile_cons_of_neg hp] at hx
      cases hx
      exact Bool.not_eq_true _ ▸ hp

theorem pyStrip_isInfix (isSpace : α → Bool) (s : List α) :
    (pyStrip isSpace s).IsInfix s := by
  unfold pyStrip
  have h1 : (s.dropWhile isSpace).IsSuffix s := List.dropWhile_suffix isSpace
  have h2 : (((s.dropWhile isSpace).reverse.dropWhile isSpace).reverse).IsPrefix
      (s.dropWhile isSpace) := by
    rw [← List.reverse_suffix, List.reverse_reverse]
    exact List.dropWhile_suffix isSpace
  exact h2.isInfix.trans h1.isInfix

theorem pyStrip_head_not_space (isSpace : α → Bool) (s : List α) (x : α)
    (hx : (pyStrip isSpace s).head? = some x) : isSpace x = false := by
  have h2 : (pyStrip isSpace s).IsPrefix (s.dropWhile isSpace) := by
    unfold pyStrip
    rw [← List.reverse_suffix, List.reverse_reverse]
    exact List.dropWhile_suffix isSpace
  obtain ⟨t, ht⟩ := h2
  apply head_of_dropWhile s x
  rw [← ht]
  rcases hp : pyStrip isSpace s with - | ⟨y, ys⟩
  · rw [hp] at hx; cases hx
  · rw [hp] at hx
    cases hx
    rfl

theorem pyStrip_getLast_not_space (isSpace : α → Bool) (s : List α) (x : α)
    (hx : (pyStrip isSpace s).getLast? = some x) : isSpace x = false := by
  unfold pyStrip at hx
  rw [List.getLast?_reverse] at hx
  exact head_of_dropWhile _ x hx

theorem uniqueByAux_sublist {σ κ : Type} [DecidableEq κ] (key : σ → κ) :
    ∀ (seen : List κ) (l : List σ), (uniqueByAux key seen l).Sublist l := by
  intro seen l
  induction l generalizing seen with
  | nil => exact List.Sublist.refl []
  | cons x xs ih =>
    by_cases hx : key x ∈ seen
    · rw [uniqueByAux, if_pos hx]
      exact (ih seen).cons x
    · rw [uniqueByAux, if_neg hx]
      exact (ih (key x :: seen)).cons₂ x

theorem uniqueByAux_key_not_seen {σ κ : Type} [DecidableEq κ] (key : σ → κ) :
    ∀ (seen : List κ) (l : List σ) (t : σ),
      t ∈ uniqueByAux key seen l → key t ∉ seen := by
  intro seen l
  induction l generalizing seen with
  | nil => intro t ht; cases ht
  | cons x xs ih =>
    intro t ht
    by_cases hx : key x ∈ seen
    · rw [uniqueByAux, if_pos hx] at ht
      exact ih seen t ht
    · rw [uniqueByAux, if_neg hx] at ht
      rcases List.mem_cons.mp ht with rfl | ht
      · exact hx
      · have := ih (key x :: seen) t ht
        intro hc
        exact this (List.mem_cons_of_mem _ hc)

theorem uniqueByAux_pairwise {σ κ : Type} [DecidableEq κ] (key : σ → κ) :
    ∀ (seen : List κ) (l : List σ),
      (uniqueByAux key seen l).Pairwise (fun s t => key s ≠ key t) := by
  intro seen l
  induction l generalizing seen with
  | nil => exact List.Pairwise.nil
  | cons x xs ih =>
    by_cases hx : key x ∈ seen
    · rw [uniqueByAux, if_pos hx]
      exact ih seen
    · rw [uniqueByAux, if_neg hx]
      refine List.pairwise_cons.mpr ⟨?_, ih (key x :: seen)⟩
      intro t ht hc
      exact uniqueByAux_key_not_seen key (key x :: seen) xs t ht
        (by rw [← hc]; exact List.mem_cons_self _ _)

theorem uniqueByAux_cover {σ κ : Type} [DecidableEq κ] (key : σ → κ) :
    ∀ (seen : List κ) (l : List σ) (s : σ), s ∈ l →
      key s ∈ seen ∨ ∃ t ∈ uniqueByAux key seen l, key t = key s := by
  intro seen l
  induction l generalizing seen with
  | nil => intro s hs; cases hs
  | cons x xs ih =>
    intro s hs
    by_cases hx : key x ∈ seen
    · rw [uniqueByAux, if_pos hx]
      rcases List.mem_cons.mp hs with rfl | hs
      · exact Or.inl hx
      · exact ih seen s hs
    · rw [uniqueByAux, if_neg hx]
      rcases List.mem_cons.mp hs with rfl | hs
      · exact Or.inr ⟨s, List.mem_cons_self _ _, rfl⟩
      · rcases ih (key x :: seen) s hs with h | ⟨t, ht, hkey⟩
        · rcases List.mem_cons.mp h with h | h
          · exact Or.inr ⟨x, List.mem_cons_self _ _, h.symm⟩
          · exact Or.inl h
        · exact Or.inr ⟨t, List.mem_cons_of_mem _ ht, hkey⟩

theorem uniqueByAux_find {σ κ : Type} [DecidableEq κ] (key : σ → κ) :
    ∀ (seen : List κ) (l : List σ) (t : σ), t ∈ uniqueByAux key seen l →
      l.find? (fun s => key s == key t) = some t := by
  intro seen l
  induction l generalizing seen with
  | nil => intro t ht; cases ht
  | cons x xs ih =>
    intro t ht
    by_cases hx : key x ∈ seen
    · rw [uniqueByAux, if_pos hx] at ht
      have hne : key x ≠ key t := by
        intro hc
        exact uniqueByAux_key_not_seen key seen xs t ht (hc ▸ hx)
      rw [List.find?_cons_of_neg _ (by simpa using hne)]
      exact ih seen t ht
    · rw [uniqueByAux, if_neg hx] at ht
      rcases List.mem_cons.mp ht with rfl | ht
      · rw [List.find?_cons_of_pos _ (by simp)]
      · have hne : key x ≠ key t := by
          intro hc
          exact uniqueByAux_key_not_seen key (key x :: seen) xs t ht
            (by rw [← hc]; exact List.mem_cons_self _ _)
        rw [List.find?_cons_of_neg _ (by simpa using hne)]
        exact ih (key x :: seen) t ht

theorem uniqueByAux_of_pairwise {σ κ : Type} [DecidableEq κ] (key : σ → κ) :
    ∀ (seen : List κ) (l : List σ),
      l.Pairwise (fun s t => key s ≠ key t) → (∀ x ∈ l, key x ∉ seen) →
      uniqueByAux key seen l = l := by
  intro seen l
  induction l generalizing seen with
  | nil => intro _ _; rfl
  | cons x xs ih =>
    intro hpw hseen
    rw [uniqueByAux, if_neg (hseen x (List.mem_cons_self _ _))]
    congr 1
    apply ih
    · exact (List.pairwise_cons.mp hpw).2
    · intro y hy
      intro hc
      rcases List.mem_cons.mp hc with hc | hc
      · exact (List.pairwise_cons.mp hpw).1 y hy hc.symm
      · exact hseen y (List.mem_cons_of_mem _ hy) hc

theorem mapOpt_roundtrip {γ δ : Type} (f : δ → Option γ) (g : γ → δ) :
    ∀ l : List γ, (∀ x ∈ l, f (g x) = some x) → mapOpt f (l.map g) = some l := by
  intro l
  induction l with
  | nil => intro _; rfl
  | cons x xs ih =>
    intro h
    have hx := h x (List.mem_cons_self _ _)
    have hxs := ih fun y hy => h y (List.mem_cons_of_mem _ hy)
    simp only [List.map_cons, mapOpt, hx, hxs]

theorem decodeAttrs_encodeAttrs (m : List (String × String)) :
    decodeAttrs (encodeAttrs m) = some m := by
  unfold encodeAttrs decodeAttrs
  apply mapOpt_roundtrip
  intro x _
  rfl

theorem decodeEntry_encodeEntry (e : String × List (String × String)) :
    decodeEntry (encodeEntry e) = some e := by
  rcases e with ⟨tag, m⟩
  unfold encodeEntry decodeEntry
  simp [decodeAttrs_encodeAttrs]

theorem jsonToStack_stackToJson (s : Stack) : jsonToStack (stackToJson s) = some s := by
  rcases s with ⟨content, wanted, full, nrt, url, hsh, sid, al⟩
  have hc : decodeContent (Json.arr (content.map encodeEntry)) = some content := by
    unfold decodeContent
    exact mapOpt_roundtrip _ _ content fun x _ => decodeEntry_encodeEntry x
  cases wanted with
  | none =>
    simp [stackToJson, jsonToStack, List.lookup, hc, decodeOptStr, decodeBool, decodeStr]
  | some a =>
    simp [stackToJson, jsonToStack, List.lookup, hc, decodeOptStr, decodeBool, decodeStr]

theorem load_save (l : List Stack) : load (save l) = some l := by
  unfold save load
  simp only [List.lookup]
  norm_num
  exact mapOpt_roundtrip jsonToStack stackToJson l fun s _ => jsonToStack_stackToJson s

/-- Claim C1: for a compiled pattern, text_match succeeds exactly when
fullmatch produces a match, with the ratio limit ignored; for plain
text, a ratio limit of at least 1 succeeds exactly on equal strings
and a smaller limit succeeds exactly when the similarity ratio reaches
the limit. -/
theorem C1_text_match_spec (f : List α → Option (List α)) (s c : List α) (r rp : ℚ) :
    (text_match (.regex f) c r = (f c).isSome) ∧
    (text_match (.regex f) c r = text_match (.regex f) c rp) ∧
    (1 ≤ r → (text_match (.txt s) c r = true ↔ s = c)) ∧
    (r < 1 → (text_match (.txt s) c r = true ↔ r ≤ similarity s c)) := by
  refine ⟨rfl, rfl, ?_, ?_⟩
  · intro h
    simp only [text_match]
    rw [if_pos h]
    simp
  · intro h
    simp only [text_match]
    rw [if_neg (not_le.mpr h)]
    simp

/-- Concrete instantiation of claim C1 at limit 1 on equal strings. -/
theorem C1_witness :
    (1 : ℚ) ≤ 1 ∧
      (text_match (.txt ([0] : List Nat)) [0] 1 = true ↔ ([0] : List Nat) = [0]) :=
  ⟨le_refl 1,
    (C1_text_match_spec (fun _ => none) [0] [0] 1 1).2.2.1 (le_refl 1)⟩

set_option maxRecDepth 100000 in
/-- Claim C2 as stated is false: the SequenceMatcher ratio depends on
the order of the two strings, so text_match below limit 1 is not
symmetric; witnessed at limit 2/5 by a pair of strings whose ratios
are 1/2 and 1/3. -/
theorem C2_counterexample :
    text_match (.txt ([0, 1, 2, 3, 4] : List Nat)) [3, 4, 5, 0, 1, 5, 2] (mkRat 2 5)
        = true ∧
    text_match (.txt ([3, 4, 5, 0, 1, 5, 2] : List Nat)) [0, 1, 2, 3, 4] (mkRat 2 5)
        = false := by
  constructor
  · decide
  · decide

/-- Claim C2 amended: below limit 1, text_match succeeds exactly when
the similarity ratio reaches the limit, and the ratio lies in [0, 1]
and equals 1 exactly for identical strings; symmetry in the two
strings does not hold in general. -/
theorem C2_ratio_bounds (a b : List α) (r : ℚ) (h : r < 1) :
    (text_match (.txt a) b r = true ↔ r ≤ similarity a b) ∧
    0 ≤ similarity a b ∧ similarity a b ≤ 1 ∧ (similarity a b = 1 ↔ a = b) := by
  refine ⟨?_, similarity_nonneg a b, similarity_le_one a b, similarity_eq_one_iff a b⟩
  simp only [text_match]
  rw [if_neg (not_le.mpr h)]
  simp

set_option maxRecDepth 100000 in
/-- Concrete instantiation of claim C2 amended at limit 2/5. -/
theorem C2_ratio_bounds_witness :
    mkRat 2 5 < 1 ∧
      ((text_match (.txt ([0] : List Nat)) [0, 1] (mkRat 2 5) = true ↔
          mkRat 2 5 ≤ similarity ([0] : List Nat) [0, 1]) ∧
        0 ≤ similarity ([0] : List Nat) [0, 1] ∧
        similarity ([0] : List Nat) [0, 1] ≤ 1 ∧
        (similarity ([0] : List Nat) [0, 1] = 1 ↔ ([0] : List Nat) = [0, 1])) :=
  ⟨by decide, C2_ratio_bounds [0] [0, 1] (mkRat 2 5) (by decide)⟩

/-- Claim C3: normalize applies the decomposition to the stripped
string, the stripped string is a contiguous piece of the input with no
whitespace character at either end, and every non-string value passes
through unchanged. -/
theorem C3_normalize_spec {β : Type} (nfkd : List α → List α) (isSpace : α → Bool)
    (s : List α) (x : β) :
    normalize nfkd isSpace (PyValue.str s : PyValue α β) = .str (nfkd (pyStrip isSpace s)) ∧
    (pyStrip isSpace s).IsInfix s ∧
    (∀ y, (pyStrip isSpace s).head? = some y → isSpace y = false) ∧
    (∀ y, (pyStrip isSpace s).getLast? = some y → isSpace y = false) ∧
    normalize nfkd isSpace (.other x) = .other x :=
  ⟨rfl, pyStrip_isInfix isSpace s,
    fun y hy => pyStrip_head_not_space isSpace s y hy,
    fun y hy => pyStrip_getLast_not_space isSpace s y hy, rfl⟩

/-- Concrete instantiation of claim C3: stripping removes the marker 9
from both ends and the remaining head is not a marker. -/
theorem C3_witness :
    (pyStrip (fun y => y == 9) ([9, 5, 9] : List Nat)).head? = some 5 ∧
      ((5 : Nat) == 9) = false :=
  ⟨by decide,
    (C3_normalize_spec (β := Nat) id (fun y => y == 9) [9, 5, 9] 0).2.2.1 5 (by decide)⟩

set_option maxRecDepth 100000 in
/-- Claim C4 as stated is false for limits above 1: text_match then
demands equality and accepts an identical string, while
FuzzyText.search still compares the ratio against the limit and
rejects it. -/
theorem C4_counterexample :
    text_match (.txt ([0] : List Nat)) [0] (mkRat 3 2) = true ∧
    FuzzyText.search ⟨([0] : List Nat), mkRat 3 2⟩ [0] = false := by
  constructor
  · decide
  · decide

/-- Claim C4 amended: for every ratio limit at most 1,
FuzzyText.search bound to a reference string returns exactly what the
non-regex path of text_match returns on the same candidate. -/
theorem C4_search_agrees (t c : List α) (r : ℚ) (h : r ≤ 1) :
    FuzzyText.search ⟨t, r⟩ c = text_match (.txt t) c r := by
  rcases lt_or_eq_of_le h with hlt | rfl
  · simp only [FuzzyText.search, text_match]
    rw [if_neg (not_le.mpr hlt)]
  · simp only [FuzzyText.search, text_match]
    rw [if_pos (le_refl (1 : ℚ))]
    have hiff : (1 ≤ similarity t c) ↔ t = c := by
      constructor
      · intro h1
        exact (similarity_eq_one_iff t c).mp (le_antisymm (similarity_le_one t c) h1)
      · intro h1
        rw [(similarity_eq_one_iff t c).mpr h1]
    exact decide_eq_decide.mpr hiff

set_option maxRecDepth 100000 in
/-- Concrete instantiation of claim C4 amended at limit 2/5. -/
theorem C4_search_agrees_witness :
    mkRat 2 5 ≤ 1 ∧
      FuzzyText.search ⟨([0] : List Nat), mkRat 2 5⟩ [0, 1] =
        text_match (.txt ([0] : List Nat)) [0, 1] (mkRat 2 5) :=
  ⟨by decide, C4_search_agrees [0] [0, 1] (mkRat 2 5) (by decide)⟩

/-- Claim C5: unique_stack_list returns a subsequence of its input in
which hashes are pairwise distinct, every input hash still occurs, and
every kept stack is the first stack of its hash in the input. -/
theorem C5_unique_stack_list_spec (l : List Stack) :
    (unique_stack_list l).Sublist l ∧
    (unique_stack_list l).Pairwise (fun s t => s.hash ≠ t.hash) ∧
    (∀ s ∈ l, ∃ t ∈ unique_stack_list l, t.hash = s.hash) ∧
    (∀ t ∈ unique_stack_list l, l.find? (fun s => s.hash == t.hash) = some t) := by
  refine ⟨uniqueByAux_sublist _ _ _, uniqueByAux_pairwise _ _ _, ?_, ?_⟩
  · intro s hs
    rcases uniqueByAux_cover Stack.hash [] l s hs with h | h
    · cases h
    · exact h
  · intro t ht
    exact uniqueByAux_find Stack.hash [] l t ht

/-- Concrete instantiation of claim C5 on a list with one duplicated
hash. -/
theorem C5_witness :
    stackC ∈ ([stackA, stackB, stackC] : List Stack) ∧
      ∃ t ∈ unique_stack_list [stackA, stackB, stackC], t.hash = stackC.hash :=
  ⟨by decide,
    (C5_unique_stack_list_spec [stackA, stackB, stackC]).2.2.1 stackC (by decide)⟩

/-- Claim C6: unique_hashable keeps a duplicate-free subsequence with
exactly the members of its input, keeps the first occurrence of each
value, and is idempotent. -/
theorem C6_unique_hashable_spec (l : List α) :
    (unique_hashable l).Sublist l ∧
    (unique_hashable l).Nodup ∧
    (∀ x, x ∈ unique_hashable l ↔ x ∈ l) ∧
    (∀ t ∈ unique_hashable l, l.find? (fun s => s == t) = some t) ∧
    unique_hashable (unique_hashable l) = unique_hashable l := by
  refine ⟨uniqueByAux_sublist _ _ _, ?_, ?_, ?_, ?_⟩
  · exact List.Pairwise.imp (fun h => h) (uniqueByAux_pairwise id [] l)
  · intro x
    constructor
    · intro hx
      exact (uniqueByAux_sublist id [] l).subset hx
    · intro hx
      rcases uniqueByAux_cover id [] l x hx with h | ⟨t, ht, hkey⟩
      · cases h
      · have ht2 : t = x := hkey
        rw [← ht2]
        exact ht
  · intro t ht
    have := uniqueByAux_find id [] l t ht
    simpa using this
  · apply uniqueByAux_of_pairwise
    · exact uniqueByAux_pairwise id [] l
    · intro x _
      exact List.not_mem_nil _

/-- Concrete instantiation of claim C6 on a list with one repeat. -/
theorem C6_witness :
    (0 : Nat) ∈ unique_hashable [0, 1, 0] ∧
      [0, 1, 0].find? (fun s => s == (0 : Nat)) = some 0 :=
  ⟨by decide, (C6_unique_hashable_spec [0, 1, 0]).2.2.2.1 0 (by decide)⟩

/-- Claim C7: saving a non-empty rule set and loading the saved value
restores the rule set exactly, preserving order and every stored
field. -/
theorem C7_save_load_round_trip (l : List Stack) (h : l ≠ []) :
    load (save l) = some l :=
  load_save l

/-- Concrete instantiation of claim C7 on a one-rule set whose record
carries a non-empty alias, wanted_attr, is_full_url and
is_non_rec_text. -/
theorem C7_witness :
    ([stackB] : List Stack) ≠ [] ∧ load (save [stackB]) = some [stackB] :=
  ⟨by decide, C7_save_load_round_trip [stackB] (by decide)⟩

/-- Claim C8: the object shape with the stack_list key and the bare
array legacy shape load to the same rule set, preserving order and
every stored field. -/
theorem C8_load_two_shapes (rules : List Stack) :
    load (Json.obj [("stack_list", Json.arr (rules.map stackToJson))]) = some rules ∧
    load (Json.arr (rules.map stackToJson)) = some rules := by
  constructor
  · exact load_save rules
  · exact mapOpt_roundtrip jsonToStack stackToJson rules
      fun s _ => jsonToStack_stackToJson s

set_option maxRecDepth 100000 in
/-- Claim C9 as stated is false: a ratio limit outside [0, 1] does not
raise; both operations still return a boolean, here true for an exact
match at limit 2 and true for any candidate at limit -1. -/
theorem C9_counterexample :
    text_match (.txt ([0] : List Nat)) [0] 2 = true ∧
    FuzzyText.search ⟨([0] : List Nat), -1⟩ [1] = true := by
  constructor
  · decide
  · decide

/-- Claim C9 amended: neither text_match nor FuzzyText.search
validates the ratio limit; a limit above 1 selects the equality branch
of text_match and makes search always fail, and a negative limit makes
both fuzzy comparisons always succeed. -/
theorem C9_no_range_check (s c : List α) (r : ℚ) :
    (1 < r →
      text_match (.txt s) c r = decide (s = c) ∧ FuzzyText.search ⟨s, r⟩ c = false) ∧
    (r < 0 →
      text_match (.txt s) c r = true ∧ FuzzyText.search ⟨s, r⟩ c = true) := by
  constructor
  · intro h
    constructor
    · simp only [text_match]
      rw [if_pos (le_of_lt h)]
    · simp only [FuzzyText.search]
      rw [decide_eq_false_iff_not]
      exact fun hc => absurd (lt_of_le_of_lt (le_trans hc (similarity_le_one s c)) h)
        (lt_irrefl r)
  · intro h
    have hr1 : ¬ (1 : ℚ) ≤ r := by
      intro hc
      linarith
    have hle : r ≤ similarity s c := le_trans (le_of_lt h) (similarity_nonneg s c)
    constructor
    · simp only [text_match]
      rw [if_neg hr1]
      simpa using hle
    · simp only [FuzzyText.search]
      simpa using hle

/-- Concrete instantiation of claim C9 amended at limit 2. -/
theorem C9_witness :
    (1 : ℚ) < 2 ∧
      (text_match (.txt ([0] : List Nat)) [0] 2 = decide (([0] : List Nat) = [0]) ∧
        FuzzyText.search ⟨([0] : List Nat), 2⟩ [0] = false) :=
  ⟨by decide, (C9_no_range_check [0] [0] 2).1 (by decide)⟩

/-- Claim C10: a plain string first argument is always compared by
equality or by the similarity ratio, never by the pattern branch, and
for a pattern first argument the ratio limit has no effect. -/
theorem C10_dispatch (f : List α → Option (List α)) (s c : List α) (r rp : ℚ) :
    (text_match (.txt s) c r = decide (s = c) ∨
      text_match (.txt s) c r = decide (r ≤ similarity s c)) ∧
    text_match (.regex f) c r = text_match (.regex f) c rp := by
  constructor
  · by_cases h : (1 : ℚ) ≤ r
    · left
      simp only [text_match]
      rw [if_pos h]
    · right
      simp only [text_match]
      rw [if_neg h]
  · rfl

end Autoscraper
